import Mathlib

/-!
Formal model of the series-based transverse Mercator projection implemented in
`src/src/TransverseMercator.cpp` (GeographicLib's `TransverseMercator` class,
compiled at the default series order `GEOGRAPHICLIB_TRANSVERSEMERCATOR_ORDER = 6`).

The C++ `real` type is modelled by `ℝ` (exact real semantics of the floating
point formulas), `std::complex<real>` by `ℂ`.  The `Math` utility class and the
`TransverseMercatorExact` delegate are not part of the given sources; the Math
helpers that the transforms call are modelled from the specification (each such
definition carries a `Modelled from the spec:` doc comment), while the exact
engine is treated as an abstract function parameter.  Constructor validation,
which only inspects finiteness and order of the raw parameters, is modelled
separately on a type `FpVal` that retains the IEEE special values.
-/

noncomputable section

open Real Finset

/-- Modelled from the spec: Horner polynomial evaluation (`Math::polyval`).
`polyval [p0, ..., pm] x = p0 * x^m + ... + pm`. -/
def polyval (p : List ℝ) (x : ℝ) : ℝ :=
  p.foldl (fun y c => y * x + c) 0

/-- Modelled from the spec: `std::hypot`, the Euclidean norm of two reals. -/
def hypot (x y : ℝ) : ℝ :=
  Real.sqrt (x ^ 2 + y ^ 2)

/-- Modelled from the spec: inverse hyperbolic tangent (`std::atanh`),
used only through `eatanhe`. -/
def artanh (x : ℝ) : ℝ :=
  Real.log ((1 + x) / (1 - x)) / 2

/-- Modelled from the spec: `Math::eatanhe(x, es)`, which is
`es * atanh(es * x)` continued to prolate ellipsoids (`es < 0`) via
`-es * atan(es * x)`. -/
def eatanhe (x es : ℝ) : ℝ :=
  if 0 < es then es * artanh (es * x) else -es * Real.arctan (es * x)

/-- Modelled from the spec: the conformal-latitude forward mapping
`Math::taupf(tau, es)`: `tan(conformal latitude)` as a function of
`tau = tan(latitude)` and the signed eccentricity. -/
def taupf (tau es : ℝ) : ℝ :=
  let tau1 := hypot 1 tau
  let sig := Real.sinh (eatanhe (tau / tau1) es)
  hypot 1 sig * tau - sig * tau1

/-- Modelled from the spec: one Newton step for the inverse conformal-latitude
mapping (`Math::tauf`), solving `taupf tau es = taup` for `tau`. -/
def taufStep (es taup tau : ℝ) : ℝ :=
  let e2m := 1 - es ^ 2
  let tau1 := hypot 1 tau
  let taupa := taupf tau es
  tau + (taup - taupa) * (1 + e2m * tau ^ 2) / (e2m * tau1 * hypot 1 taupa)

/-- Modelled from the spec: the conformal-latitude inverse mapping
(`Math::tauf`), Newton's method from the spherical initial guess. -/
def tauf (taup es : ℝ) : ℝ :=
  (fun t => taufStep es taup t)^[5] (taup / (1 - es ^ 2))

/-- Modelled from the spec: two-argument arctangent (`std::atan2`), in
radians, with the usual quadrant conventions. -/
def atan2 (y x : ℝ) : ℝ :=
  if 0 < x then Real.arctan (y / x)
  else if x < 0 then
    (if y < 0 then Real.arctan (y / x) - π else Real.arctan (y / x) + π)
  else
    (if 0 < y then π / 2 else if y < 0 then -(π / 2) else 0)

/-- Modelled from the spec: `Math::atan2d`, two-argument arctangent in
degrees. -/
def atan2d (y x : ℝ) : ℝ :=
  atan2 y x * (180 / π)

/-- Modelled from the spec: `Math::atand`, arctangent in degrees. -/
def atand (x : ℝ) : ℝ :=
  Real.arctan x * (180 / π)

/-- Modelled from the spec: sine of an angle given in degrees
(the sine half of `Math::sincosd`). -/
def sind (x : ℝ) : ℝ :=
  Real.sin (x * (π / 180))

/-- Modelled from the spec: cosine of an angle given in degrees
(the cosine half of `Math::sincosd`). -/
def cosd (x : ℝ) : ℝ :=
  Real.cos (x * (π / 180))

/-- Reduction of an angle to `[-180, 180]` for nonnegative input, the
boundary value being `+180`. -/
def angNormRaw (x : ℝ) : ℝ :=
  let r := x - 360 * round (x / 360)
  if |r| = 180 then 180 else r

/-- Modelled from the spec: `Math::AngNormalize`, wrapping an angle in
degrees to the canonical range `[-180, 180]`, an exact multiple of `180`
keeping the sign of the input.  The C++ function (built on `remainder` and
`copysign`) is an odd function of its argument; the model is odd by
construction. -/
def AngNormalize (x : ℝ) : ℝ :=
  if x < 0 then -angNormRaw (-x) else angNormRaw x

/-- Modelled from the spec: `Math::AngDiff lon0 lon`, the normalized angular
difference `lon - lon0` in `[-180, 180]`. -/
def AngDiff (x y : ℝ) : ℝ :=
  AngNormalize (y - x)

/-- Modelled from the spec: `Math::LatFix`, latitude clamping to
`[-90, 90]`. -/
def LatFix (x : ℝ) : ℝ :=
  max (-90) (min 90 x)

/-- The sign factor the transforms extract from a coordinate before working
with its absolute value: `-1` for negative input, `+1` otherwise (the model of
the `signbit(x) ? -1 : 1` idiom; `ℝ` has no negative zero). -/
def signOf (x : ℝ) : ℝ :=
  if x < 0 then -1 else 1

/-! ## The Clenshaw evaluator

Transcription of the summation loop shared by `Forward` (lines 493-513) and
`Reverse` (lines 548-568) of `TransverseMercator.cpp`: two pairs of complex
accumulators, coefficients processed from the highest index down to 1, two
steps per loop iteration, with a pre-loop step when the order is odd. -/

/-- The body of the `while (n)` loop: starting from an even counter `n`, each
iteration performs the two updates
`y1 = a*y0 - y1 + c n;  z1 = a*z0 - z1 + 2*n*(c n)` and
`y0 = a*y1 - y0 + c (n-1);  z0 = a*z1 - z0 + 2*(n-1)*(c (n-1))`. -/
def clenshawGo (a : ℂ) (c : ℕ → ℂ) : ℕ → ℂ × ℂ → ℂ × ℂ → (ℂ × ℂ) × (ℂ × ℂ)
  | 0, ys, zs => (ys, zs)
  | 1, ys, zs => (ys, zs)
  | m + 2, (y0, y1), (z0, z1) =>
    let y1n := a * y0 - y1 + c (m + 2)
    let z1n := a * z0 - z1 + ((2 * (m + 2) : ℕ) : ℂ) * c (m + 2)
    let y0n := a * y1n - y0 + c (m + 1)
    let z0n := a * z1n - z0 + ((2 * (m + 1) : ℕ) : ℂ) * c (m + 1)
    clenshawGo a c m (y0n, y1n) (z0n, z1n)

/-- The full Clenshaw evaluation: initial accumulators (`c ord` and
`2*ord*(c ord)` when the order is odd, zero otherwise), then the two-step
loop.  Returns `((y0, y1), (z0, z1))` as left by the loop. -/
def clenshaw (ord : ℕ) (a : ℂ) (c : ℕ → ℂ) : (ℂ × ℂ) × (ℂ × ℂ) :=
  if ord % 2 = 1 then
    clenshawGo a c (ord - 1) (c ord, 0) (((2 * ord : ℕ) : ℂ) * c ord, 0)
  else
    clenshawGo a c ord (0, 0) (0, 0)

/-- The tail of both transforms (lines 493-513 and 548-568): build
`a = 2*cos(2*zeta)` from the real components, run the Clenshaw loop on the
given real coefficients, and combine into the corrected coordinate
`zeta + sin(2*zeta) * y0` and the derivative factor `1 - z1 + cos(2*zeta) * z0`. -/
def seriesFinal (c : ℕ → ℝ) (u v : ℝ) : ℂ × ℂ :=
  let c0 := Real.cos (2 * u)
  let ch0 := Real.cosh (2 * v)
  let s0 := Real.sin (2 * u)
  let sh0 := Real.sinh (2 * v)
  let a : ℂ := (2 * (c0 * ch0) : ℝ) + (-(2 * (s0 * sh0)) : ℝ) * Complex.I
  let r := clenshaw 6 a (fun j => ((c j : ℝ) : ℂ))
  (((u : ℝ) : ℂ) + ((v : ℝ) : ℂ) * Complex.I
     + ((s0 * ch0 : ℝ) + (c0 * sh0 : ℝ) * Complex.I) * r.1.1,
   1 - r.2.2 + (a / 2) * r.2.1)

/-! ## Ellipsoid parameters and series coefficients

Transcription of the member initializers and the constructor body of
`TransverseMercator::TransverseMercator` (order 6 tables). -/

/-- The raw configuration of the series engine: equatorial radius `a`,
flattening `f`, central scale `k0` (the fields `_a`, `_f`, `_k0`). -/
structure TMParams where
  a : ℝ
  f : ℝ
  k0 : ℝ

/-- `_e2 = f * (2 - f)`, the squared eccentricity. -/
def TMParams.e2 (p : TMParams) : ℝ :=
  p.f * (2 - p.f)

/-- `_es`, the signed eccentricity. -/
def TMParams.es (p : TMParams) : ℝ :=
  (if p.f < 0 then -1 else 1) * Real.sqrt |p.e2|

/-- `_e2m = 1 - e2`. -/
def TMParams.e2m (p : TMParams) : ℝ :=
  1 - p.e2

/-- `_c = sqrt(e2m) * exp(eatanhe(1, es))`, the meridian-radius constant. -/
def TMParams.c (p : TMParams) : ℝ :=
  Real.sqrt p.e2m * Real.exp (eatanhe 1 p.es)

/-- `_n = f / (2 - f)`, the third flattening. -/
def TMParams.n (p : TMParams) : ℝ :=
  p.f / (2 - p.f)

/-- The `b1` computation for each supported compile-time order 4..8:
`polyval(m, b1coeff, n^2) / (b1coeff[m+1] * (1+n))` with the order's
`b1coeff` table (`m = order/2`). -/
def b1of (ord : ℕ) (n : ℝ) : ℝ :=
  if ord ≤ 5 then polyval [1, 16, 64] (n ^ 2) / (64 * (1 + n))
  else if ord ≤ 7 then polyval [1, 4, 64, 256] (n ^ 2) / (256 * (1 + n))
  else polyval [25, 64, 256, 4096, 16384] (n ^ 2) / (16384 * (1 + n))

/-- The rectifying-radius ratio `a1/a` for each supported order, at third
flattening derived from flattening `f`. -/
def a1of (ord : ℕ) (f a : ℝ) : ℝ :=
  b1of ord (f / (2 - f)) * a

/-- `_b1` at the default order 6. -/
def TMParams.b1 (p : TMParams) : ℝ :=
  b1of 6 p.n

/-- `_a1 = b1 * a`, the rectifying radius. -/
def TMParams.a1 (p : TMParams) : ℝ :=
  p.b1 * p.a

/-- The forward series coefficients `_alp[1..6]` (order-6 `alpcoeff` table);
`0` outside `1..6`. -/
def TMParams.alp (p : TMParams) : ℕ → ℝ
  | 1 => p.n ^ 1 * polyval [31564, -66675, 34440, 47250, -100800, 75600] p.n / 151200
  | 2 => p.n ^ 2 * polyval [-1983433, 863232, 748608, -1161216, 524160] p.n / 1935360
  | 3 => p.n ^ 3 * polyval [670412, 406647, -533952, 184464] p.n / 725760
  | 4 => p.n ^ 4 * polyval [6601661, -7732800, 2230245] p.n / 7257600
  | 5 => p.n ^ 5 * polyval [-13675556, 3438171] p.n / 7983360
  | 6 => p.n ^ 6 * polyval [212378941] p.n / 319334400
  | _ => 0

/-- The reverse series coefficients `_bet[1..6]` (order-6 `betcoeff` table);
`0` outside `1..6`. -/
def TMParams.bet (p : TMParams) : ℕ → ℝ
  | 1 => p.n ^ 1 * polyval [384796, -382725, -6720, 932400, -1612800, 1209600] p.n / 2419200
  | 2 => p.n ^ 2 * polyval [-1118711, 1695744, -1174656, 258048, 80640] p.n / 3870720
  | 3 => p.n ^ 3 * polyval [22276, -16929, -15984, 12852] p.n / 362880
  | 4 => p.n ^ 4 * polyval [-830251, -158400, 197865] p.n / 7257600
  | 5 => p.n ^ 5 * polyval [-435388, 453717] p.n / 15966720
  | 6 => p.n ^ 6 * polyval [20648693] p.n / 638668800
  | _ => 0

/-! ## The forward transform

Transcription of `TransverseMercator::Forward` (lines 360-526), split into
the part after sign extraction (`ForwardAbs`) and the sign extraction itself
(`ForwardCore`).  Results are `(x, y, gamma, k)`. -/

/-- The Gauss-Schreiber stage of `Forward` (lines 399-427): from the
(absolute-value) latitude and the possibly backside-reflected longitude,
produce `(xip, etap, gamma, k)`; exact limiting values at the pole. -/
def gaussSchreiber (p : TMParams) (lat lon : ℝ) : ℝ × ℝ × ℝ × ℝ :=
  if lat ≠ 90 then
    let sphi := sind lat
    let cphi := cosd lat
    let slam := sind lon
    let clam := cosd lon
    let tau := sphi / cphi
    let taup := taupf tau p.es
    (atan2 taup clam,
     Real.arsinh (slam / hypot taup clam),
     atan2d (slam * taup) (clam * hypot 1 taup),
     Real.sqrt (p.e2m + p.e2 * cosd lat ^ 2) * hypot 1 tau / hypot taup clam)
  else
    (π / 2, 0, lon, p.c)

/-- `Forward` after latitude/longitude normalization and sign extraction
(lines 373-525): backside detection and reflection, the Gauss-Schreiber
stage, the Clenshaw series, and the final assembly with the recorded signs. -/
def ForwardAbs (p : TMParams) (lat lon : ℝ) (latsign lonsign : ℝ) : ℝ × ℝ × ℝ × ℝ :=
  let backside := 90 < lon
  let latsign2 := if backside ∧ lat = 0 then -1 else latsign
  let lon2 := if backside then 180 - lon else lon
  let G := gaussSchreiber p lat lon2
  let xip := G.1
  let etap := G.2.1
  let gamma0 := G.2.2.1
  let k0 := G.2.2.2
  let F := seriesFinal p.alp xip etap
  let xi := F.1.re
  let eta := F.1.im
  let gamma1 := gamma0 - atan2d F.2.im F.2.re
  let k1 := k0 * (p.b1 * Complex.abs F.2)
  let y := p.a1 * p.k0 * (if backside then π - xi else xi) * latsign2
  let x := p.a1 * p.k0 * eta * lonsign
  let gamma2 := if backside then 180 - gamma1 else gamma1
  (x, y, AngNormalize (gamma2 * (latsign2 * lonsign)), k1 * p.k0)

/-- The series forward transform (lines 360-526, non-delegating path):
latitude fix, longitude difference, parity extraction, then `ForwardAbs`. -/
def ForwardCore (p : TMParams) (lon0 lat lon : ℝ) : ℝ × ℝ × ℝ × ℝ :=
  ForwardAbs p (LatFix lat * signOf (LatFix lat))
    (AngDiff lon0 lon * signOf (AngDiff lon0 lon))
    (signOf (LatFix lat)) (signOf (AngDiff lon0 lon))

/-! ## The reverse transform

Transcription of `TransverseMercator::Reverse` (lines 528-608, non-delegating
path).  Results are `(lat, lon, gamma, k)`. -/

/-- The series reverse transform: normalization by the rectifying radius,
parity extraction, backside detection, the Clenshaw series on the negated
`bet` coefficients, and the Newton-based latitude recovery. -/
def ReverseCore (p : TMParams) (lon0 x y : ℝ) : ℝ × ℝ × ℝ × ℝ :=
  let xi0 := y / (p.a1 * p.k0)
  let eta0 := x / (p.a1 * p.k0)
  let xisign := signOf xi0
  let etasign := signOf eta0
  let xi1 := xi0 * xisign
  let eta1 := eta0 * etasign
  let backside := π / 2 < xi1
  let xi2 := if backside then π - xi1 else xi1
  let F := seriesFinal (fun j => -p.bet j) xi2 eta1
  let gamma0 := atan2d F.2.im F.2.re
  let k0v := p.b1 / Complex.abs F.2
  let xip := F.1.re
  let etap := F.1.im
  let s := Real.sinh etap
  let c := max 0 (Real.cos xip)
  let r := hypot s c
  let R : ℝ × ℝ × ℝ × ℝ :=
    if r ≠ 0 then
      let sxip := Real.sin xip
      let tau := tauf (sxip / r) p.es
      (atand tau,
       atan2d s c,
       gamma0 + atan2d (sxip * Real.tanh etap) c,
       k0v * (Real.sqrt (p.e2m + p.e2 / (1 + tau ^ 2)) * hypot 1 tau * r))
    else
      (90, 0, gamma0, k0v * p.c)
  let lat := R.1 * xisign
  let lon1 := if backside then 180 - R.2.1 else R.2.1
  let lon2 := AngNormalize (lon1 * etasign + lon0)
  let gamma1 := if backside then 180 - R.2.2.1 else R.2.2.1
  (lat, lon2, AngNormalize (gamma1 * (xisign * etasign)), R.2.2.2 * p.k0)

/-! ## Delegation to the exact engine and constructor validation -/

/-- `Forward` including the delegation test (lines 363-364): when the engine
was configured with `exact = true`, the call is handed unchanged to the
delegate (the external `TransverseMercatorExact`, abstracted as `dF`). -/
def TMForward (exactFlag : Bool) (dF : ℝ → ℝ → ℝ → ℝ × ℝ × ℝ × ℝ)
    (p : TMParams) (lon0 lat lon : ℝ) : ℝ × ℝ × ℝ × ℝ :=
  if exactFlag then dF lon0 lat lon else ForwardCore p lon0 lat lon

/-- `Reverse` including the delegation test (lines 531-532). -/
def TMReverse (exactFlag : Bool) (dR : ℝ → ℝ → ℝ → ℝ × ℝ × ℝ × ℝ)
    (p : TMParams) (lon0 x y : ℝ) : ℝ × ℝ × ℝ × ℝ :=
  if exactFlag then dR lon0 x y else ReverseCore p lon0 x y

/-- A floating-point parameter value as the constructor's validation sees it:
NaN, an infinity, or a finite value (the finite payload is kept as a rational
so that validation is decidable; the checks only compare and test
finiteness). -/
inductive FpVal where
  | nan : FpVal
  | posinf : FpVal
  | neginf : FpVal
  | fin : ℚ → FpVal
deriving DecidableEq

/-- `std::isfinite`. -/
def FpVal.isfinite : FpVal → Bool
  | .fin _ => true
  | _ => false

/-- The IEEE `<` comparison: any comparison with NaN is false. -/
def FpVal.ltb : FpVal → FpVal → Bool
  | .nan, _ => false
  | _, .nan => false
  | .neginf, .neginf => false
  | .neginf, _ => true
  | _, .neginf => false
  | .posinf, _ => false
  | .fin _, .posinf => true
  | .fin q, .fin r => decide (q < r)

/-- The constructor's failure behaviour (lines 62-73): `none` when
construction succeeds, `some message` when `GeographicErr` is thrown.  When
`exact` is set the constructor returns before any check. -/
def constructorError (a f k0 : FpVal) (exactFlag extendp : Bool) : Option String :=
  if exactFlag then none
  else if ¬(a.isfinite ∧ FpVal.ltb (.fin 0) a) then some "Equatorial radius is not positive"
  else if ¬(f.isfinite ∧ FpVal.ltb f (.fin 1)) then some "Polar semi-axis is not positive"
  else if ¬(k0.isfinite ∧ FpVal.ltb (.fin 0) k0) then some "Scale is not positive"
  else if extendp then some "TransverseMercator extendp not allowed if !exact"
  else none

/-! ## Derived quantities used in the statements -/

/-- The value of the derivative factor `1 - z1 + cos(2*zeta) * z0` of the
forward series at `zeta = 0`:  `1 + sum of 2*j*alp[j]`. -/
def D0 (p : TMParams) : ℝ :=
  1 + ∑ j in Finset.range 6, 2 * ((j : ℝ) + 1) * p.alp (j + 1)

/-- The value of the derivative factor of the forward series at
`zeta = pi/2` (the pole): `1 + sum of 2*j*alp[j]*(-1)^j`. -/
def Dpole (p : TMParams) : ℝ :=
  1 + ∑ j in Finset.range 6, 2 * ((j : ℝ) + 1) * p.alp (j + 1) * (-1) ^ (j + 1)

/-- The value of the derivative factor of the forward series on the
equatorial segment `zeta = i*v`: `1 + sum of 2*j*alp[j]*cosh(2*j*v)`
(real, since `cos(2*j*i*v) = cosh(2*j*v)`). -/
def Deq (p : TMParams) (v : ℝ) : ℝ :=
  1 + ∑ j in Finset.range 6,
    2 * ((j : ℝ) + 1) * p.alp (j + 1) * Real.cosh (((j + 1 : ℕ) : ℝ) * (2 * v))

/-! ## Correctness of the Clenshaw evaluator

The loop state is related to the classical downward Clenshaw sequence
`b[k] = a * b[k+1] - b[k+2] + c[k]` (zero above the order), whose telescoping
against any sequence of functions satisfying the three-term recurrence
`G((k+1)x) = a * G(kx) - G((k-1)x)` yields the series sum. -/

/-- `bpair a c ord d = (b[ord+1-d], b[ord+2-d])` for the downward Clenshaw
recurrence with multiplier `a` and coefficients `c`. -/
def bpair (a : ℂ) (c : ℕ → ℂ) (ord : ℕ) : ℕ → ℂ × ℂ
  | 0 => (0, 0)
  | d + 1 =>
    (a * (bpair a c ord d).1 - (bpair a c ord d).2 + c (ord - d), (bpair a c ord d).1)

/-- The downward Clenshaw sequence `b[k]` itself. -/
def bseq (a : ℂ) (c : ℕ → ℂ) (ord k : ℕ) : ℂ :=
  (bpair a c ord (ord + 1 - k)).1

lemma bseq_top (a : ℂ) (c : ℕ → ℂ) {ord k : ℕ} (h : ord < k) :
    bseq a c ord k = 0 := by
  have h0 : ord + 1 - k = 0 := by omega
  rw [bseq, h0]
  rfl

lemma bseq_rec (a : ℂ) (c : ℕ → ℂ) {ord k : ℕ} (h1 : 1 ≤ k) (h2 : k ≤ ord) :
    bseq a c ord k = a * bseq a c ord (k + 1) - bseq a c ord (k + 2) + c k := by
  have hd : ord + 1 - k = (ord - k) + 1 := by omega
  have hk1 : ord + 1 - (k + 1) = ord - k := by omega
  have hordk : ord - (ord - k) = k := by omega
  rw [bseq, hd, bpair]
  rw [bseq, hk1, hordk]
  rcases Nat.eq_zero_or_eq_succ_pred (ord - k) with h0 | h0
  · have hk2 : ord + 1 - (k + 2) = 0 := by omega
    rw [bseq, hk2, h0]
    rfl
  · have hk2 : ord + 1 - (k + 2) = (ord - k) - 1 := by omega
    rw [bseq, hk2, h0]
    rfl

lemma bseq_inv (x : ℂ) (c : ℕ → ℂ) (ord : ℕ) (G : ℂ → ℂ)
    (hG : ∀ k : ℕ, 1 ≤ k →
      G (((k + 1 : ℕ) : ℂ) * x)
        = 2 * Complex.cos x * G ((k : ℂ) * x) - G (((k - 1 : ℕ) : ℂ) * x)) :
    ∀ d, d ≤ ord →
      bseq (2 * Complex.cos x) c ord (ord + 1 - d) * G (((ord + 1 - d : ℕ) : ℂ) * x)
          - bseq (2 * Complex.cos x) c ord (ord + 2 - d) * G (((ord - d : ℕ) : ℂ) * x)
        = ∑ j in Finset.range d, c (ord - j) * G (((ord - j : ℕ) : ℂ) * x) := by
  intro d
  induction d with
  | zero =>
    intro _
    rw [bseq_top _ _ (by omega), bseq_top _ _ (by omega)]
    simp
  | succ d ih =>
    intro hd
    have h1 : 1 ≤ ord - d := by omega
    have h2 : ord - d ≤ ord := by omega
    have e1 : ord + 1 - (d + 1) = ord - d := by omega
    have e2 : ord + 2 - (d + 1) = (ord - d) + 1 := by omega
    have e3 : ord - (d + 1) = (ord - d) - 1 := by omega
    have e4 : ord + 1 - d = (ord - d) + 1 := by omega
    have e5 : ord + 2 - d = (ord - d) + 2 := by omega
    have IH := ih (by omega)
    rw [e4, e5] at IH
    rw [e1, e2, e3, Finset.sum_range_succ, ← IH,
      bseq_rec _ _ h1 h2, hG (ord - d) h1]
    ring

lemma clenshawGo_run (a : ℂ) (c : ℕ → ℂ) (ord : ℕ) :
    ∀ d, 2 * d ≤ ord →
      clenshawGo a c (2 * d)
          (bseq a c ord (2 * d + 1), bseq a c ord (2 * d + 2))
          (bseq a (fun j => ((2 * j : ℕ) : ℂ) * c j) ord (2 * d + 1),
           bseq a (fun j => ((2 * j : ℕ) : ℂ) * c j) ord (2 * d + 2))
        = ((bseq a c ord 1, bseq a c ord 2),
           (bseq a (fun j => ((2 * j : ℕ) : ℂ) * c j) ord 1,
            bseq a (fun j => ((2 * j : ℕ) : ℂ) * c j) ord 2)) := by
  intro d
  induction d with
  | zero =>
    intro _
    norm_num [clenshawGo]
  | succ d ih =>
    intro hd
    have hy1 : a * bseq a c ord (2 * d + 3) - bseq a c ord (2 * d + 4) + c (2 * d + 2)
        = bseq a c ord (2 * d + 2) := (bseq_rec a c (by omega) (by omega)).symm
    have hy0 : a * bseq a c ord (2 * d + 2) - bseq a c ord (2 * d + 3) + c (2 * d + 1)
        = bseq a c ord (2 * d + 1) := (bseq_rec a c (by omega) (by omega)).symm
    have hz1 : a * bseq a (fun j => ((2 * j : ℕ) : ℂ) * c j) ord (2 * d + 3)
          - bseq a (fun j => ((2 * j : ℕ) : ℂ) * c j) ord (2 * d + 4)
          + ((2 * (2 * d + 2) : ℕ) : ℂ) * c (2 * d + 2)
        = bseq a (fun j => ((2 * j : ℕ) : ℂ) * c j) ord (2 * d + 2) :=
      (bseq_rec a (fun j => ((2 * j : ℕ) : ℂ) * c j) (by omega) (by omega)).symm
    have hz0 : a * bseq a (fun j => ((2 * j : ℕ) : ℂ) * c j) ord (2 * d + 2)
          - bseq a (fun j => ((2 * j : ℕ) : ℂ) * c j) ord (2 * d + 3)
          + ((2 * (2 * d + 1) : ℕ) : ℂ) * c (2 * d + 1)
        = bseq a (fun j => ((2 * j : ℕ) : ℂ) * c j) ord (2 * d + 1) :=
      (bseq_rec a (fun j => ((2 * j : ℕ) : ℂ) * c j) (by omega) (by omega)).symm
    have e1 : 2 * (d + 1) + 1 = 2 * d + 3 := by omega
    have e2 : 2 * (d + 1) + 2 = 2 * d + 4 := by omega
    rw [e1, e2, show 2 * (d + 1) = (2 * d) + 2 from by omega, clenshawGo]
    rw [hy1, hy0, hz1, hz0]
    exact ih (by omega)

lemma clenshaw_run (a : ℂ) (c : ℕ → ℂ) (ord : ℕ) :
    clenshaw ord a c
      = ((bseq a c ord 1, bseq a c ord 2),
         (bseq a (fun j => ((2 * j : ℕ) : ℂ) * c j) ord 1,
          bseq a (fun j => ((2 * j : ℕ) : ℂ) * c j) ord 2)) := by
  rcases Nat.even_or_odd ord with ⟨d, hd⟩ | ⟨d, hd⟩
  · have hmod : ¬ ord % 2 = 1 := by omega
    have hd2 : ord = 2 * d := by omega
    have h := clenshawGo_run a c ord d (by omega)
    rw [bseq_top a c (show ord < 2 * d + 1 from by omega),
      bseq_top a c (show ord < 2 * d + 2 from by omega),
      bseq_top a (fun j => ((2 * j : ℕ) : ℂ) * c j) (show ord < 2 * d + 1 from by omega),
      bseq_top a (fun j => ((2 * j : ℕ) : ℂ) * c j) (show ord < 2 * d + 2 from by omega)] at h
    rw [clenshaw, if_neg hmod]
    conv_lhs => rw [hd2]
    exact h
  · have hmod : ord % 2 = 1 := by omega
    have hord1 : 1 ≤ ord := by omega
    have htopc : bseq a c ord ord = c ord := by
      rw [bseq_rec a c hord1 le_rfl, bseq_top a c (by omega), bseq_top a c (by omega)]
      ring
    have htopz : bseq a (fun j => ((2 * j : ℕ) : ℂ) * c j) ord ord
        = ((2 * ord : ℕ) : ℂ) * c ord := by
      rw [bseq_rec a _ hord1 le_rfl, bseq_top a _ (by omega), bseq_top a _ (by omega)]
      ring
    have h := clenshawGo_run a c ord d (by omega)
    rw [show 2 * d + 1 = ord from by omega, show 2 * d + 2 = ord + 1 from by omega,
      htopc, htopz, bseq_top a c (show ord < ord + 1 from by omega),
      bseq_top a (fun j => ((2 * j : ℕ) : ℂ) * c j) (show ord < ord + 1 from by omega)] at h
    rw [clenshaw, if_pos hmod]
    conv_lhs => rw [show ord - 1 = 2 * d from by omega]
    exact h

lemma sin_three_term (x : ℂ) :
    ∀ k : ℕ, 1 ≤ k →
      Complex.sin (((k + 1 : ℕ) : ℂ) * x)
        = 2 * Complex.cos x * Complex.sin ((k : ℂ) * x)
          - Complex.sin (((k - 1 : ℕ) : ℂ) * x) := by
  intro k hk
  have h1 : ((k + 1 : ℕ) : ℂ) = (k : ℂ) + 1 := by push_cast; ring
  have h2 : ((k - 1 : ℕ) : ℂ) = (k : ℂ) - 1 := by push_cast [Nat.cast_sub hk]; ring
  rw [h1, h2, add_mul, one_mul, sub_mul, one_mul, Complex.sin_add, Complex.sin_sub]
  ring

lemma cos_three_term (x : ℂ) :
    ∀ k : ℕ, 1 ≤ k →
      Complex.cos (((k + 1 : ℕ) : ℂ) * x)
        = 2 * Complex.cos x * Complex.cos ((k : ℂ) * x)
          - Complex.cos (((k - 1 : ℕ) : ℂ) * x) := by
  intro k hk
  have h1 : ((k + 1 : ℕ) : ℂ) = (k : ℂ) + 1 := by push_cast; ring
  have h2 : ((k - 1 : ℕ) : ℂ) = (k : ℂ) - 1 := by push_cast [Nat.cast_sub hk]; ring
  rw [h1, h2, add_mul, one_mul, sub_mul, one_mul, Complex.cos_add, Complex.cos_sub]
  ring

lemma reflect_sum (ord : ℕ) (F : ℕ → ℂ) :
    ∑ j in Finset.range ord, F (ord - j) = ∑ j in Finset.range ord, F (j + 1) := by
  rw [← Finset.sum_range_reflect (fun j => F (j + 1)) ord]
  refine Finset.sum_congr rfl ?_
  intro j hj
  have hj' : j < ord := Finset.mem_range.mp hj
  have : ord - j = (ord - 1 - j) + 1 := by omega
  rw [this]

lemma clenshaw_sin (ord : ℕ) (c : ℕ → ℂ) (x : ℂ) :
    (clenshaw ord (2 * Complex.cos x) c).1.1 * Complex.sin x
      = ∑ j in Finset.range ord, c (j + 1) * Complex.sin (((j + 1 : ℕ) : ℂ) * x) := by
  have inv := bseq_inv x c ord Complex.sin (sin_three_term x) ord le_rfl
  rw [show ord + 1 - ord = 1 from by omega, show ord + 2 - ord = 2 from by omega,
    show ord - ord = 0 from by omega] at inv
  simp only [Nat.cast_zero, zero_mul, Complex.sin_zero, mul_zero, sub_zero,
    Nat.cast_one, one_mul] at inv
  rw [clenshaw_run]
  rw [inv, ← reflect_sum ord (fun k => c k * Complex.sin ((k : ℂ) * x))]

lemma clenshaw_cos (ord : ℕ) (c : ℕ → ℂ) (x : ℂ) :
    1 - (clenshaw ord (2 * Complex.cos x) c).2.2
        + Complex.cos x * (clenshaw ord (2 * Complex.cos x) c).2.1
      = 1 + ∑ j in Finset.range ord,
          ((2 * (j + 1) : ℕ) : ℂ) * c (j + 1) * Complex.cos (((j + 1 : ℕ) : ℂ) * x) := by
  have inv := bseq_inv x (fun j => ((2 * j : ℕ) : ℂ) * c j) ord Complex.cos
    (cos_three_term x) ord le_rfl
  rw [show ord + 1 - ord = 1 from by omega, show ord + 2 - ord = 2 from by omega,
    show ord - ord = 0 from by omega] at inv
  simp only [Nat.cast_zero, zero_mul, Complex.cos_zero, mul_one,
    Nat.cast_one, one_mul] at inv
  rw [clenshaw_run]
  have hre := reflect_sum ord (fun k => ((2 * k : ℕ) : ℂ) * c k * Complex.cos ((k : ℂ) * x))
  simp only [] at hre inv ⊢
  rw [show (1 : ℂ) - bseq (2 * Complex.cos x) (fun j => ((2 * j : ℕ) : ℂ) * c j) ord 2
        + Complex.cos x * bseq (2 * Complex.cos x) (fun j => ((2 * j : ℕ) : ℂ) * c j) ord 1
      = 1 + (bseq (2 * Complex.cos x) (fun j => ((2 * j : ℕ) : ℂ) * c j) ord 1 * Complex.cos x
        - bseq (2 * Complex.cos x) (fun j => ((2 * j : ℕ) : ℂ) * c j) ord 2) from by ring,
    inv, ← hre]

/-- The real-component construction of `2 * cos(2*zeta)` used by the code
(lines 493-496) agrees with the complex cosine. -/
lemma mkA_eq (u v : ℝ) :
    ((2 * (Real.cos (2 * u) * Real.cosh (2 * v)) : ℝ) : ℂ)
        + ((-(2 * (Real.sin (2 * u) * Real.sinh (2 * v))) : ℝ) : ℂ) * Complex.I
      = 2 * Complex.cos (2 * ((u : ℂ) + (v : ℂ) * Complex.I)) := by
  have hz : (2 : ℂ) * ((u : ℂ) + (v : ℂ) * Complex.I)
      = ((2 * u : ℝ) : ℂ) + ((2 * v : ℝ) : ℂ) * Complex.I := by push_cast; ring
  rw [hz, Complex.cos_add_mul_I, ← Complex.ofReal_cos, ← Complex.ofReal_sin,
    ← Complex.ofReal_cosh, ← Complex.ofReal_sinh]
  push_cast
  ring

/-- The real-component construction of `sin(2*zeta)` used by the code
(line 512) agrees with the complex sine. -/
lemma mkS_eq (u v : ℝ) :
    ((Real.sin (2 * u) * Real.cosh (2 * v) : ℝ) : ℂ)
        + ((Real.cos (2 * u) * Real.sinh (2 * v) : ℝ) : ℂ) * Complex.I
      = Complex.sin (2 * ((u : ℂ) + (v : ℂ) * Complex.I)) := by
  have hz : (2 : ℂ) * ((u : ℂ) + (v : ℂ) * Complex.I)
      = ((2 * u : ℝ) : ℂ) + ((2 * v : ℝ) : ℂ) * Complex.I := by push_cast; ring
  rw [hz, Complex.sin_add_mul_I, ← Complex.ofReal_cos, ← Complex.ofReal_sin,
    ← Complex.ofReal_cosh, ← Complex.ofReal_sinh]
  push_cast
  ring

/-- The corrected-coordinate output of `seriesFinal` is exactly the truncated
sine series at `zeta = u + v*I`. -/
lemma seriesFinal_fst (c : ℕ → ℝ) (u v : ℝ) :
    (seriesFinal c u v).1
      = ((u : ℂ) + (v : ℂ) * Complex.I)
        + ∑ j in Finset.range 6, ((c (j + 1) : ℝ) : ℂ)
            * Complex.sin (((j + 1 : ℕ) : ℂ)
                * (2 * ((u : ℂ) + (v : ℂ) * Complex.I))) := by
  have key := clenshaw_sin 6 (fun j => ((c j : ℝ) : ℂ))
    (2 * ((u : ℂ) + (v : ℂ) * Complex.I))
  rw [← mkA_eq u v] at key
  simp only [seriesFinal]
  rw [mkS_eq u v, mul_comm (Complex.sin _), key]

/-- The derivative-factor output of `seriesFinal` is exactly the truncated
cosine series at `zeta = u + v*I`. -/
lemma seriesFinal_snd (c : ℕ → ℝ) (u v : ℝ) :
    (seriesFinal c u v).2
      = 1 + ∑ j in Finset.range 6, ((2 * (j + 1) : ℕ) : ℂ) * ((c (j + 1) : ℝ) : ℂ)
          * Complex.cos (((j + 1 : ℕ) : ℂ)
              * (2 * ((u : ℂ) + (v : ℂ) * Complex.I))) := by
  have key := clenshaw_cos 6 (fun j => ((c j : ℝ) : ℂ))
    (2 * ((u : ℂ) + (v : ℂ) * Complex.I))
  rw [← mkA_eq u v] at key
  simp only [seriesFinal]
  have ha2 : (((2 * (Real.cos (2 * u) * Real.cosh (2 * v)) : ℝ) : ℂ)
        + ((-(2 * (Real.sin (2 * u) * Real.sinh (2 * v))) : ℝ) : ℂ) * Complex.I) / 2
      = Complex.cos (2 * ((u : ℂ) + (v : ℂ) * Complex.I)) := by
    rw [mkA_eq]
    ring
  rw [ha2]
  exact key

/-- C2: the Clenshaw evaluation used by both transforms — two pairs of complex
accumulators updated by `b[k] = a*b[k+1] - b[k+2] + coeff[k]`, processed from
the highest coefficient index down to 1, two steps per loop iteration (Reverse
instantiates `coeff` with the negated `bet` coefficients) — produces exactly,
over the reals, the truncated series sum
`zeta' + sum_{j=1}^{order} coeff[j] * sin(2*j*zeta')` and its derivative
`1 + sum_{j=1}^{order} 2*j*coeff[j] * cos(2*j*zeta')`, where
`a = 2*cos(2*zeta')`. -/
theorem clenshaw_series_exact (ord : ℕ) (coeff : ℕ → ℂ) (zetap : ℂ) :
    zetap + Complex.sin (2 * zetap)
        * (clenshaw ord (2 * Complex.cos (2 * zetap)) coeff).1.1
      = zetap + ∑ j in Finset.range ord, coeff (j + 1)
          * Complex.sin (2 * ((j : ℂ) + 1) * zetap)
    ∧ 1 - (clenshaw ord (2 * Complex.cos (2 * zetap)) coeff).2.2
        + Complex.cos (2 * zetap)
          * (clenshaw ord (2 * Complex.cos (2 * zetap)) coeff).2.1
      = 1 + ∑ j in Finset.range ord, 2 * ((j : ℂ) + 1) * coeff (j + 1)
          * Complex.cos (2 * ((j : ℂ) + 1) * zetap) := by
  constructor
  · have key := clenshaw_sin ord coeff (2 * zetap)
    rw [mul_comm (Complex.sin (2 * zetap)), key]
    congr 1
    refine Finset.sum_congr rfl fun j _ => ?_
    have h2 : ((j + 1 : ℕ) : ℂ) * (2 * zetap) = 2 * ((j : ℂ) + 1) * zetap := by
      push_cast
      ring
    rw [h2]
  · have key := clenshaw_cos ord coeff (2 * zetap)
    rw [key]
    congr 1
    refine Finset.sum_congr rfl fun j _ => ?_
    have h1 : ((2 * (j + 1) : ℕ) : ℂ) = 2 * ((j : ℂ) + 1) := by push_cast; ring
    have h2 : ((j + 1 : ℕ) : ℂ) * (2 * zetap) = 2 * ((j : ℂ) + 1) * zetap := by
      push_cast
      ring
    rw [h1, h2]

/-! ## Elementary values of the modelled Math helpers -/

lemma angNormRaw_small {x : ℝ} (h0 : 0 ≤ x) (h1 : x < 180) : angNormRaw x = x := by
  have hr : round (x / 360) = 0 := by
    rw [round_eq, Int.floor_eq_zero_iff, Set.mem_Ico]
    constructor
    · have : 0 ≤ x / 360 := div_nonneg h0 (by norm_num)
      linarith
    · have : x / 360 < 1 / 2 := by
        rw [div_lt_iff₀ (by norm_num : (0:ℝ) < 360)]
        linarith
      linarith
  have hne : ¬ |x| = 180 := by
    rw [abs_of_nonneg h0]
    linarith
  simp only [angNormRaw, hr, Int.cast_zero, mul_zero, sub_zero, if_neg hne]

lemma angNormRaw_zero : angNormRaw 0 = 0 :=
  angNormRaw_small le_rfl (by norm_num)

lemma AngNormalize_small {x : ℝ} (h0 : -180 < x) (h1 : x < 180) :
    AngNormalize x = x := by
  rcases lt_or_le x 0 with h | h
  · rw [AngNormalize, if_pos h, angNormRaw_small (by linarith) (by linarith)]
    ring
  · rw [AngNormalize, if_neg (not_lt.mpr h)]
    exact angNormRaw_small h h1

lemma abs_angNormRaw_le (x : ℝ) : |angNormRaw x| ≤ 180 := by
  simp only [angNormRaw]
  split_ifs with h
  · norm_num
  · have h2 := abs_sub_round (x / 360)
    have key : x - 360 * (round (x / 360) : ℝ) = 360 * (x / 360 - (round (x / 360) : ℝ)) := by
      ring
    rw [key, abs_mul]
    have h360 : |(360 : ℝ)| = 360 := by norm_num
    rw [h360]
    linarith

lemma abs_AngNormalize_le (x : ℝ) : |AngNormalize x| ≤ 180 := by
  rw [AngNormalize]
  split_ifs with h
  · rw [abs_neg]
    exact abs_angNormRaw_le _
  · exact abs_angNormRaw_le _

lemma AngNormalize_neg (x : ℝ) : AngNormalize (-x) = -AngNormalize x := by
  rcases lt_trichotomy x 0 with h | h | h
  · rw [AngNormalize, if_neg (by linarith : ¬ -x < 0), AngNormalize, if_pos h, neg_neg]
  · subst h
    rw [neg_zero, AngNormalize, if_neg (lt_irrefl 0), angNormRaw_zero, neg_zero]
  · rw [AngNormalize, if_pos (by linarith : -x < 0), AngNormalize,
      if_neg (by linarith : ¬ x < 0), neg_neg]

lemma hypot_one_zero : hypot 1 0 = 1 := by
  rw [hypot]
  norm_num

lemma hypot_zero_one : hypot 0 1 = 1 := by
  rw [hypot]
  norm_num

lemma eatanhe_zero (es : ℝ) : eatanhe 0 es = 0 := by
  rw [eatanhe]
  split_ifs
  · rw [mul_zero, artanh]
    norm_num
  · rw [mul_zero, Real.arctan_zero, mul_zero]

lemma taupf_zero (es : ℝ) : taupf 0 es = 0 := by
  simp only [taupf, zero_div, eatanhe_zero, Real.sinh_zero, mul_zero, zero_mul,
    sub_zero]

lemma atan2_zero_pos {x : ℝ} (h : 0 < x) : atan2 0 x = 0 := by
  rw [atan2, if_pos h, zero_div, Real.arctan_zero]

lemma atan2d_zero_pos {x : ℝ} (h : 0 < x) : atan2d 0 x = 0 := by
  rw [atan2d, atan2_zero_pos h, zero_mul]

lemma sind_zero : sind 0 = 0 := by
  rw [sind, zero_mul, Real.sin_zero]

lemma cosd_zero : cosd 0 = 1 := by
  rw [cosd, zero_mul, Real.cos_zero]

lemma cosd_pos_of_lt_90 {x : ℝ} (h0 : 0 ≤ x) (h1 : x < 90) : 0 < cosd x := by
  rw [cosd]
  apply Real.cos_pos_of_mem_Ioo
  constructor
  · have : 0 ≤ x * (π / 180) := by positivity
    linarith [Real.pi_pos]
  · have hlt : x * (π / 180) < 90 * (π / 180) := by
      apply mul_lt_mul_of_pos_right h1
      positivity
    have : (90 : ℝ) * (π / 180) = π / 2 := by ring
    linarith

lemma signOf_neg_of_ne {x : ℝ} (h : x ≠ 0) : signOf (-x) = -signOf x := by
  rcases lt_or_gt_of_ne h with h' | h'
  · rw [signOf, if_neg (by linarith : ¬ -x < 0), signOf, if_pos h']
    norm_num
  · rw [signOf, if_pos (by linarith : -x < 0), signOf, if_neg (by linarith : ¬ x < 0)]

lemma mul_signOf_eq_abs (x : ℝ) : x * signOf x = |x| := by
  rw [signOf]
  split_ifs with h
  · rw [abs_of_neg h]
    ring
  · rw [abs_of_nonneg (not_lt.mp h), mul_one]

lemma signOf_zero : signOf 0 = 1 := by
  rw [signOf, if_neg (lt_irrefl 0)]

lemma LatFix_neg (x : ℝ) : LatFix (-x) = -LatFix x := by
  rw [LatFix, LatFix, max_def, max_def, min_def, min_def]
  split_ifs <;> linarith

lemma LatFix_pos {x : ℝ} (h : 0 < x) : 0 < LatFix x := by
  rw [LatFix]
  have h1 : 0 < min 90 x := lt_min (by norm_num) h
  exact lt_of_lt_of_le h1 (le_max_right _ _)

lemma LatFix_neg' {x : ℝ} (h : x < 0) : LatFix x < 0 := by
  rw [LatFix, min_eq_right (by linarith : x ≤ (90:ℝ))]
  exact max_lt (by norm_num) h

lemma LatFix_of_abs_le {x : ℝ} (h : |x| ≤ 90) : LatFix x = x := by
  rw [LatFix, min_eq_right (abs_le.mp h).2, max_eq_right (abs_le.mp h).1]

lemma real_cos_nat_mul_pi (n : ℕ) : Real.cos (n * π) = (-1) ^ n := by
  induction n with
  | zero => simp
  | succ n ih =>
    have : ((n + 1 : ℕ) : ℝ) * π = (n : ℝ) * π + π := by push_cast; ring
    rw [this, Real.cos_add_pi, ih]
    ring

/-! ## Evaluation of the transform stages at special points -/

lemma gs_pole (p : TMParams) (lon : ℝ) :
    gaussSchreiber p 90 lon = (π / 2, 0, lon, p.c) := by
  rw [gaussSchreiber, if_neg (by simp : ¬ (90 : ℝ) ≠ 90)]

lemma gs_origin (p : TMParams) : gaussSchreiber p 0 0 = (0, 0, 0, 1) := by
  rw [gaussSchreiber, if_pos (by norm_num : (0 : ℝ) ≠ 90)]
  simp only [sind_zero, cosd_zero, zero_div, taupf_zero, hypot_zero_one,
    hypot_one_zero, zero_mul, mul_one, one_mul, div_one, Real.arsinh_zero]
  rw [atan2_zero_pos one_pos, atan2d_zero_pos one_pos]
  have he : p.e2m + p.e2 * 1 ^ 2 = 1 := by
    rw [TMParams.e2m]
    ring
  rw [he, Real.sqrt_one]

lemma gs_equator_xip (p : TMParams) (lon : ℝ) (h : 0 < cosd lon) :
    (gaussSchreiber p 0 lon).1 = 0 := by
  rw [gaussSchreiber, if_pos (by norm_num : (0 : ℝ) ≠ 90)]
  simp only [sind_zero, cosd_zero, zero_div, taupf_zero]
  exact atan2_zero_pos h

lemma gs_equator_gamma0 (p : TMParams) (lon : ℝ) (h : 0 < cosd lon) :
    (gaussSchreiber p 0 lon).2.2.1 = 0 := by
  rw [gaussSchreiber, if_pos (by norm_num : (0 : ℝ) ≠ 90)]
  simp only [sind_zero, cosd_zero, zero_div, taupf_zero, mul_zero,
    hypot_one_zero, mul_one]
  exact atan2d_zero_pos h

lemma sf_fst_origin (c : ℕ → ℝ) : (seriesFinal c 0 0).1 = 0 := by
  rw [seriesFinal_fst]
  have hz : ((0 : ℝ) : ℂ) + ((0 : ℝ) : ℂ) * Complex.I = 0 := by simp
  rw [hz]
  simp

lemma sf_snd_origin (c : ℕ → ℝ) :
    (seriesFinal c 0 0).2
      = ((1 + ∑ j in Finset.range 6, 2 * ((j : ℝ) + 1) * c (j + 1) : ℝ) : ℂ) := by
  rw [seriesFinal_snd]
  have hz : ((0 : ℝ) : ℂ) + ((0 : ℝ) : ℂ) * Complex.I = 0 := by simp
  rw [hz]
  have hterm : ∀ j ∈ Finset.range 6,
      ((2 * (j + 1) : ℕ) : ℂ) * ((c (j + 1) : ℝ) : ℂ)
          * Complex.cos (((j + 1 : ℕ) : ℂ) * (2 * (0 : ℂ)))
        = ((2 * ((j : ℝ) + 1) * c (j + 1) : ℝ) : ℂ) := by
    intro j _
    rw [mul_zero, mul_zero, Complex.cos_zero, mul_one]
    push_cast
    ring
  rw [Finset.sum_congr rfl hterm, ← Complex.ofReal_sum]
  push_cast
  ring

lemma sf_fst_pole (c : ℕ → ℝ) : (seriesFinal c (π / 2) 0).1 = ((π / 2 : ℝ) : ℂ) := by
  rw [seriesFinal_fst]
  have hz : ((π / 2 : ℝ) : ℂ) + ((0 : ℝ) : ℂ) * Complex.I = ((π / 2 : ℝ) : ℂ) := by simp
  rw [hz]
  have hterm : ∀ j ∈ Finset.range 6,
      ((c (j + 1) : ℝ) : ℂ)
          * Complex.sin (((j + 1 : ℕ) : ℂ) * (2 * ((π / 2 : ℝ) : ℂ))) = 0 := by
    intro j _
    have harg : ((j + 1 : ℕ) : ℂ) * (2 * ((π / 2 : ℝ) : ℂ))
        = ((((j + 1 : ℕ) : ℝ) * π : ℝ) : ℂ) := by
      push_cast
      ring
    rw [harg, ← Complex.ofReal_sin, Real.sin_nat_mul_pi, Complex.ofReal_zero, mul_zero]
  rw [Finset.sum_congr rfl hterm, Finset.sum_const_zero, add_zero]

lemma sf_snd_pole (c : ℕ → ℝ) :
    (seriesFinal c (π / 2) 0).2
      = ((1 + ∑ j in Finset.range 6, 2 * ((j : ℝ) + 1) * c (j + 1) * (-1) ^ (j + 1) : ℝ) : ℂ) := by
  rw [seriesFinal_snd]
  have hz : ((π / 2 : ℝ) : ℂ) + ((0 : ℝ) : ℂ) * Complex.I = ((π / 2 : ℝ) : ℂ) := by simp
  rw [hz]
  have hterm : ∀ j ∈ Finset.range 6,
      ((2 * (j + 1) : ℕ) : ℂ) * ((c (j + 1) : ℝ) : ℂ)
          * Complex.cos (((j + 1 : ℕ) : ℂ) * (2 * ((π / 2 : ℝ) : ℂ)))
        = ((2 * ((j : ℝ) + 1) * c (j + 1) * (-1) ^ (j + 1) : ℝ) : ℂ) := by
    intro j _
    have harg : ((j + 1 : ℕ) : ℂ) * (2 * ((π / 2 : ℝ) : ℂ))
        = ((((j + 1 : ℕ) : ℝ) * π : ℝ) : ℂ) := by
      push_cast
      ring
    rw [harg, ← Complex.ofReal_cos, real_cos_nat_mul_pi]
    push_cast
    ring
  rw [Finset.sum_congr rfl hterm, ← Complex.ofReal_sum]
  push_cast
  ring

lemma sf_fst_im_axis_re (c : ℕ → ℝ) (v : ℝ) : (seriesFinal c 0 v).1.re = 0 := by
  rw [seriesFinal_fst]
  have hz : ((0 : ℝ) : ℂ) + ((v : ℝ) : ℂ) * Complex.I = ((v : ℝ) : ℂ) * Complex.I := by
    simp
  rw [hz]
  have hterm : ∀ j ∈ Finset.range 6,
      ((c (j + 1) : ℝ) : ℂ)
          * Complex.sin (((j + 1 : ℕ) : ℂ) * (2 * (((v : ℝ) : ℂ) * Complex.I)))
        = ((c (j + 1) * Real.sinh (((j + 1 : ℕ) : ℝ) * (2 * v)) : ℝ) : ℂ) * Complex.I := by
    intro j _
    have harg : ((j + 1 : ℕ) : ℂ) * (2 * (((v : ℝ) : ℂ) * Complex.I))
        = ((((j + 1 : ℕ) : ℝ) * (2 * v) : ℝ) : ℂ) * Complex.I := by
      push_cast
      ring
    rw [harg, Complex.sin_mul_I, ← Complex.ofReal_sinh]
    push_cast
    ring
  rw [Finset.sum_congr rfl hterm, Complex.add_re, Complex.re_sum]
  simp only [Complex.mul_re, Complex.I_re, Complex.I_im, Complex.ofReal_re,
    Complex.ofReal_im, mul_zero, mul_one, zero_mul, zero_sub, sub_zero, neg_zero,
    Finset.sum_const_zero, add_zero, zero_add]

lemma sf_snd_im_axis (c : ℕ → ℝ) (v : ℝ) :
    (seriesFinal c 0 v).2
      = ((1 + ∑ j in Finset.range 6, 2 * ((j : ℝ) + 1) * c (j + 1)
          * Real.cosh (((j + 1 : ℕ) : ℝ) * (2 * v)) : ℝ) : ℂ) := by
  rw [seriesFinal_snd]
  have hz : ((0 : ℝ) : ℂ) + ((v : ℝ) : ℂ) * Complex.I = ((v : ℝ) : ℂ) * Complex.I := by
    simp
  rw [hz]
  have hterm : ∀ j ∈ Finset.range 6,
      ((2 * (j + 1) : ℕ) : ℂ) * ((c (j + 1) : ℝ) : ℂ)
          * Complex.cos (((j + 1 : ℕ) : ℂ) * (2 * (((v : ℝ) : ℂ) * Complex.I)))
        = ((2 * ((j : ℝ) + 1) * c (j + 1)
            * Real.cosh (((j + 1 : ℕ) : ℝ) * (2 * v)) : ℝ) : ℂ) := by
    intro j _
    have harg : ((j + 1 : ℕ) : ℂ) * (2 * (((v : ℝ) : ℂ) * Complex.I))
        = ((((j + 1 : ℕ) : ℝ) * (2 * v) : ℝ) : ℂ) * Complex.I := by
      push_cast
      ring
    rw [harg, Complex.cos_mul_I, ← Complex.ofReal_cosh]
    push_cast
    ring
  rw [Finset.sum_congr rfl hterm, ← Complex.ofReal_sum]
  push_cast
  ring

lemma AngNormalize_zero : AngNormalize 0 = 0 :=
  AngNormalize_small (by norm_num) (by norm_num)

lemma angNormRaw_180 : angNormRaw 180 = 180 := by
  have hr : round ((180 : ℝ) / 360) = 1 := by
    have h1 : (180 : ℝ) / 360 + 1 / 2 = 1 := by norm_num
    rw [round_eq, h1, Int.floor_one]
  have habs : |(180 : ℝ) - 360 * ((1 : ℤ) : ℝ)| = 180 := by norm_num
  simp only [angNormRaw, hr, habs, if_true]

lemma AngNormalize_180 : AngNormalize 180 = 180 := by
  rw [AngNormalize, if_neg (by norm_num : ¬ (180 : ℝ) < 0), angNormRaw_180]

lemma AngNormalize_neg180 : AngNormalize (-180) = -180 := by
  rw [show (-180 : ℝ) = -(180 : ℝ) from by norm_num, AngNormalize_neg,
    AngNormalize_180]

lemma angN_neg_mul_left (g s t : ℝ) :
    AngNormalize (g * (-s * t)) = -AngNormalize (g * (s * t)) := by
  rw [show g * (-s * t) = -(g * (s * t)) from by ring, AngNormalize_neg]

lemma angN_neg_mul_right (g s t : ℝ) :
    AngNormalize (g * (s * -t)) = -AngNormalize (g * (s * t)) := by
  rw [show g * (s * -t) = -(g * (s * t)) from by ring, AngNormalize_neg]

/-- `Forward` at the origin of the projection (normalized latitude 0,
longitude difference 0, positive signs): `x = y = gamma = 0` and
`k = b1 * D0 * k0`, provided the series derivative factor `D0` is positive. -/
lemma forwardAbs_origin (p : TMParams) (h : 0 < D0 p) :
    ForwardAbs p 0 0 1 1 = (0, 0, 0, p.b1 * D0 p * p.k0) := by
  have hb : ¬ (90 : ℝ) < 0 := by norm_num
  have h2 : (seriesFinal p.alp 0 0).2 = ((D0 p : ℝ) : ℂ) := by
    rw [sf_snd_origin]
    rfl
  have hD0 : atan2d ((D0 p : ℝ) : ℂ).im ((D0 p : ℝ) : ℂ).re = 0 := by
    rw [Complex.ofReal_im, Complex.ofReal_re]
    exact atan2d_zero_pos h
  simp only [ForwardAbs, if_neg hb, false_and, if_false, eq_false hb, gs_origin,
    sf_fst_origin, h2]
  simp only [Complex.zero_re, Complex.zero_im, hD0, Complex.abs_ofReal,
    abs_of_pos h, zero_sub, neg_zero, mul_zero, zero_mul, mul_one, one_mul,
    AngNormalize_zero]

/-- `Forward` at the pole (normalized latitude exactly 90): `x = 0`,
`y = a1 * k0 * pi/2` times the recorded latitude sign, and
`k = c * b1 * |Dpole| * k0`, for any longitude and signs. -/
lemma forwardAbs_pole (p : TMParams) (lon ls os : ℝ) :
    (ForwardAbs p 90 lon ls os).1 = 0
    ∧ (ForwardAbs p 90 lon ls os).2.1 = p.a1 * p.k0 * (π / 2) * ls
    ∧ (ForwardAbs p 90 lon ls os).2.2.2 = p.c * (p.b1 * |Dpole p|) * p.k0 := by
  have h90 : ¬ ((90 : ℝ) = 0) := by norm_num
  have h1 : (seriesFinal p.alp (π / 2) 0).1 = ((π / 2 : ℝ) : ℂ) := sf_fst_pole p.alp
  have h2 : (seriesFinal p.alp (π / 2) 0).2 = ((Dpole p : ℝ) : ℂ) := by
    rw [sf_snd_pole]
    rfl
  by_cases hb : (90 : ℝ) < lon
  · simp only [ForwardAbs, if_pos hb, eq_true hb, true_and, if_neg h90, if_true,
      gs_pole, h1, h2]
    simp only [Complex.ofReal_re, Complex.ofReal_im, Complex.abs_ofReal,
      mul_zero, zero_mul]
    refine ⟨?_, ?_, ?_⟩ <;> first | trivial | ring1
  · simp only [ForwardAbs, if_neg hb, eq_false hb, false_and, if_false, gs_pole,
      h1, h2]
    simp only [Complex.ofReal_re, Complex.ofReal_im, Complex.abs_ofReal,
      mul_zero, zero_mul]
    refine ⟨?_, ?_, ?_⟩ <;> trivial

/-- `Forward` at an equatorial backside point (normalized latitude 0,
normalized longitude difference beyond 90): the latitude sign is forced
negative and the northing is `-(a1 * k0 * pi)`. -/
lemma forwardAbs_equator_backside (p : TMParams) (lon ls os : ℝ)
    (h90 : 90 < lon) (h180 : lon ≤ 180) :
    (ForwardAbs p 0 lon ls os).2.1 = -(p.a1 * p.k0 * π) := by
  have hclam : 0 < cosd (180 - lon) :=
    cosd_pos_of_lt_90 (by linarith) (by linarith)
  have hxip : (gaussSchreiber p 0 (180 - lon)).1 = 0 := gs_equator_xip p _ hclam
  simp only [ForwardAbs, if_pos h90, eq_true h90, true_and, eq_self_iff_true,
    if_true, if_pos rfl, hxip, sf_fst_im_axis_re]
  ring

/-- The convergence output of `Forward` at an equatorial backside point: the
Gauss-Schreiber convergence is 0, the series correction vanishes when the
derivative factor `Deq` is positive, the backside flip gives 180, and the
forced latitude sign `-1` turns it into `AngNormalize (180 * (-1 * lonsign))`. -/
lemma forwardAbs_equator_backside_gamma (p : TMParams) (lon ls os : ℝ)
    (h90 : 90 < lon) (h180 : lon ≤ 180)
    (hD : 0 < Deq p ((gaussSchreiber p 0 (180 - lon)).2.1)) :
    (ForwardAbs p 0 lon ls os).2.2.1 = AngNormalize (180 * (-1 * os)) := by
  have hclam : 0 < cosd (180 - lon) :=
    cosd_pos_of_lt_90 (by linarith) (by linarith)
  have hxip : (gaussSchreiber p 0 (180 - lon)).1 = 0 := gs_equator_xip p _ hclam
  have hg0 : (gaussSchreiber p 0 (180 - lon)).2.2.1 = 0 := gs_equator_gamma0 p _ hclam
  have hF2 : (seriesFinal p.alp 0 ((gaussSchreiber p 0 (180 - lon)).2.1)).2
      = ((Deq p ((gaussSchreiber p 0 (180 - lon)).2.1) : ℝ) : ℂ) := by
    rw [sf_snd_im_axis]
    rfl
  simp only [ForwardAbs, if_pos h90, eq_true h90, true_and, eq_self_iff_true,
    if_true, if_pos rfl, hxip, hg0, hF2, Complex.ofReal_im, Complex.ofReal_re,
    atan2d_zero_pos hD, zero_sub, sub_neg_eq_add, zero_add, sub_zero]

/-- Flipping the recorded latitude sign (away from the forced equatorial
backside case) negates `y` and `gamma` and leaves `x` and `k` unchanged. -/
lemma forwardAbs_latsign_mirror (p : TMParams) (lat lon ls os : ℝ) (h : lat ≠ 0) :
    (ForwardAbs p lat lon (-ls) os).1 = (ForwardAbs p lat lon ls os).1
    ∧ (ForwardAbs p lat lon (-ls) os).2.1 = -(ForwardAbs p lat lon ls os).2.1
    ∧ (ForwardAbs p lat lon (-ls) os).2.2.1 = -(ForwardAbs p lat lon ls os).2.2.1
    ∧ (ForwardAbs p lat lon (-ls) os).2.2.2 = (ForwardAbs p lat lon ls os).2.2.2 := by
  have hlat : ¬ ((90 : ℝ) < lon ∧ lat = 0) := by
    rintro ⟨-, h0⟩
    exact h h0
  simp only [ForwardAbs, if_neg hlat]
  refine ⟨?_, ?_, ?_, ?_⟩ <;> first | trivial | ring1 | exact angN_neg_mul_left _ _ _

/-- Flipping the recorded longitude sign negates `x` and `gamma` and leaves
`y` and `k` unchanged. -/
lemma forwardAbs_lonsign_mirror (p : TMParams) (lat lon ls os : ℝ) :
    (ForwardAbs p lat lon ls (-os)).1 = -(ForwardAbs p lat lon ls os).1
    ∧ (ForwardAbs p lat lon ls (-os)).2.1 = (ForwardAbs p lat lon ls os).2.1
    ∧ (ForwardAbs p lat lon ls (-os)).2.2.1 = -(ForwardAbs p lat lon ls os).2.2.1
    ∧ (ForwardAbs p lat lon ls (-os)).2.2.2 = (ForwardAbs p lat lon ls os).2.2.2 := by
  simp only [ForwardAbs]
  refine ⟨?_, ?_, ?_, ?_⟩ <;> first | trivial | ring1 | exact angN_neg_mul_right _ _ _

lemma AngDiff_self (x : ℝ) : AngDiff x x = 0 := by
  rw [AngDiff, sub_self, AngNormalize_zero]

lemma LatFix_zero : LatFix 0 = 0 :=
  LatFix_of_abs_le (by norm_num)

lemma LatFix_ne_zero {x : ℝ} (h : x ≠ 0) : LatFix x ≠ 0 := by
  rcases lt_or_gt_of_ne h with h' | h'
  · exact ne_of_lt (LatFix_neg' h')
  · exact ne_of_gt (LatFix_pos h')

/-- `ForwardCore` at the origin. -/
lemma forwardCore_origin (p : TMParams) (lon0 : ℝ) (h : 0 < D0 p) :
    ForwardCore p lon0 0 lon0 = (0, 0, 0, p.b1 * D0 p * p.k0) := by
  rw [ForwardCore, AngDiff_self, LatFix_zero, signOf_zero]
  simp only [zero_mul, mul_one]
  exact forwardAbs_origin p h

/-- `ForwardCore` at the poles: the stated components for latitude `90`
and `-90`. -/
lemma forwardCore_pole (p : TMParams) (lon0 lon : ℝ) :
    (ForwardCore p lon0 90 lon).1 = 0
    ∧ (ForwardCore p lon0 90 lon).2.1 = p.a1 * p.k0 * (π / 2)
    ∧ (ForwardCore p lon0 90 lon).2.2.2 = p.c * (p.b1 * |Dpole p|) * p.k0
    ∧ (ForwardCore p lon0 (-90) lon).1 = 0
    ∧ (ForwardCore p lon0 (-90) lon).2.1 = -(p.a1 * p.k0 * (π / 2))
    ∧ (ForwardCore p lon0 (-90) lon).2.2.2 = p.c * (p.b1 * |Dpole p|) * p.k0 := by
  have hfix : LatFix 90 = 90 := LatFix_of_abs_le (by norm_num)
  have hfixn : LatFix (-90) = -90 := LatFix_of_abs_le (by norm_num)
  have hs : signOf (90 : ℝ) = 1 := by
    rw [signOf, if_neg (by norm_num : ¬ (90:ℝ) < 0)]
  have hsn : signOf (-90 : ℝ) = -1 := by
    rw [signOf, if_pos (by norm_num : (-90:ℝ) < 0)]
  have hpos := forwardAbs_pole p (AngDiff lon0 lon * signOf (AngDiff lon0 lon)) 1
    (signOf (AngDiff lon0 lon))
  have hneg := forwardAbs_pole p (AngDiff lon0 lon * signOf (AngDiff lon0 lon)) (-1)
    (signOf (AngDiff lon0 lon))
  rw [ForwardCore, ForwardCore, hfix, hfixn, hs, hsn]
  simp only [mul_one, show ((-90 : ℝ)) * -1 = 90 from by norm_num]
  refine ⟨hpos.1, ?_, hpos.2.2, hneg.1, ?_, hneg.2.2⟩
  · rw [hpos.2.1]
    ring
  · rw [hneg.2.1]
    ring

/-- `ForwardCore` at an equatorial backside point: the northing is
`-(a1 * k0 * pi)`. -/
lemma forwardCore_equator_backside (p : TMParams) (lon0 lon : ℝ)
    (h : 90 < |AngDiff lon0 lon|) :
    (ForwardCore p lon0 0 lon).2.1 = -(p.a1 * p.k0 * π) := by
  have habs : |AngDiff lon0 lon| ≤ 180 := by
    rw [AngDiff]
    exact abs_AngNormalize_le _
  rw [ForwardCore, LatFix_zero, signOf_zero]
  simp only [zero_mul, mul_signOf_eq_abs]
  exact (forwardAbs_equator_backside p _ 1 _ h habs)

/-- `ForwardCore` at an equatorial backside point: when the series derivative
factor is positive, the convergence is `-lonsign * 180`. -/
lemma forwardCore_equator_backside_gamma (p : TMParams) (lon0 lon : ℝ)
    (h : 90 < |AngDiff lon0 lon|)
    (hD : 0 < Deq p ((gaussSchreiber p 0 (180 - |AngDiff lon0 lon|)).2.1)) :
    (ForwardCore p lon0 0 lon).2.2.1 = -signOf (AngDiff lon0 lon) * 180 := by
  have habs : |AngDiff lon0 lon| ≤ 180 := by
    rw [AngDiff]
    exact abs_AngNormalize_le _
  rw [ForwardCore, LatFix_zero, signOf_zero]
  simp only [zero_mul, mul_signOf_eq_abs]
  rw [forwardAbs_equator_backside_gamma p _ 1 _ h habs hD]
  by_cases hs : AngDiff lon0 lon < 0
  · rw [signOf, if_pos hs,
      show (180 : ℝ) * (-1 * -1) = 180 from by norm_num, AngNormalize_180]
    norm_num
  · rw [signOf, if_neg hs,
      show (180 : ℝ) * (-1 * 1) = -180 from by norm_num, AngNormalize_neg180]
    norm_num

/-- Negating the input latitude away from the equator mirrors the output. -/
lemma forwardCore_latsign_mirror (p : TMParams) (lon0 lat lon : ℝ) (h : lat ≠ 0) :
    (ForwardCore p lon0 (-lat) lon).1 = (ForwardCore p lon0 lat lon).1
    ∧ (ForwardCore p lon0 (-lat) lon).2.1 = -(ForwardCore p lon0 lat lon).2.1
    ∧ (ForwardCore p lon0 (-lat) lon).2.2.1 = -(ForwardCore p lon0 lat lon).2.2.1
    ∧ (ForwardCore p lon0 (-lat) lon).2.2.2 = (ForwardCore p lon0 lat lon).2.2.2 := by
  have hL : LatFix lat ≠ 0 := LatFix_ne_zero h
  have habs : LatFix lat * signOf (LatFix lat) ≠ 0 := by
    rw [mul_signOf_eq_abs]
    exact abs_ne_zero.mpr hL
  rw [ForwardCore, ForwardCore, LatFix_neg, signOf_neg_of_ne hL,
    show -LatFix lat * -signOf (LatFix lat)
      = LatFix lat * signOf (LatFix lat) from by ring]
  exact forwardAbs_latsign_mirror p _ _ _ _ habs

/-- Negating the longitude difference mirrors the output. -/
lemma forwardCore_lonsign_mirror (p : TMParams) (lon0 lat d : ℝ)
    (h : AngNormalize d ≠ 0) :
    (ForwardCore p lon0 lat (lon0 - d)).1 = -(ForwardCore p lon0 lat (lon0 + d)).1
    ∧ (ForwardCore p lon0 lat (lon0 - d)).2.1 = (ForwardCore p lon0 lat (lon0 + d)).2.1
    ∧ (ForwardCore p lon0 lat (lon0 - d)).2.2.1
        = -(ForwardCore p lon0 lat (lon0 + d)).2.2.1
    ∧ (ForwardCore p lon0 lat (lon0 - d)).2.2.2
        = (ForwardCore p lon0 lat (lon0 + d)).2.2.2 := by
  have hADp : AngDiff lon0 (lon0 + d) = AngNormalize d := by
    rw [AngDiff, show lon0 + d - lon0 = d from by ring]
  have hADm : AngDiff lon0 (lon0 - d) = -AngNormalize d := by
    rw [AngDiff, show lon0 - d - lon0 = -d from by ring, AngNormalize_neg]
  rw [ForwardCore, ForwardCore, hADp, hADm, signOf_neg_of_ne h,
    show -AngNormalize d * -signOf (AngNormalize d)
      = AngNormalize d * signOf (AngNormalize d) from by ring]
  exact forwardAbs_lonsign_mirror p _ _ _ _

/-! ## Concrete coefficient values -/

lemma TMParams.alp_one (p : TMParams) :
    p.alp 1 = p.n ^ 1 * polyval [31564, -66675, 34440, 47250, -100800, 75600] p.n
      / 151200 := rfl

lemma TMParams.alp_two (p : TMParams) :
    p.alp 2 = p.n ^ 2 * polyval [-1983433, 863232, 748608, -1161216, 524160] p.n
      / 1935360 := rfl

lemma TMParams.alp_three (p : TMParams) :
    p.alp 3 = p.n ^ 3 * polyval [670412, 406647, -533952, 184464] p.n / 725760 := rfl

lemma TMParams.alp_four (p : TMParams) :
    p.alp 4 = p.n ^ 4 * polyval [6601661, -7732800, 2230245] p.n / 7257600 := rfl

lemma TMParams.alp_five (p : TMParams) :
    p.alp 5 = p.n ^ 5 * polyval [-13675556, 3438171] p.n / 7983360 := rfl

lemma TMParams.alp_six (p : TMParams) :
    p.alp 6 = p.n ^ 6 * polyval [212378941] p.n / 319334400 := rfl

/-- The concrete ellipsoid used in the counterexamples: unit radius,
flattening `1/3` (third flattening `n = 1/5`), unit central scale. -/
def pEx : TMParams := ⟨1, 1/3, 1⟩

lemma pEx_n : pEx.n = 1 / 5 := by
  rw [TMParams.n]
  norm_num [pEx]

lemma pEx_D0 : D0 pEx = 4752357 / 4000000 := by
  rw [D0]
  norm_num [Finset.sum_range_succ, Finset.sum_range_zero, TMParams.alp_one,
    TMParams.alp_two, TMParams.alp_three, TMParams.alp_four, TMParams.alp_five,
    TMParams.alp_six, pEx_n, polyval, List.foldl]

lemma pEx_Dpole : Dpole pEx = 542687752721 / 623700000000 := by
  rw [Dpole]
  norm_num [Finset.sum_range_succ, Finset.sum_range_zero, TMParams.alp_one,
    TMParams.alp_two, TMParams.alp_three, TMParams.alp_four, TMParams.alp_five,
    TMParams.alp_six, pEx_n, polyval, List.foldl]

lemma pEx_b1 : pEx.b1 = 4040101 / 4800000 := by
  rw [TMParams.b1, b1of]
  norm_num [pEx_n, polyval, List.foldl]

lemma pEx_c_pos : 0 < pEx.c := by
  rw [TMParams.c]
  apply mul_pos
  · apply Real.sqrt_pos.mpr
    norm_num [TMParams.e2m, TMParams.e2, pEx]
  · exact Real.exp_pos _

lemma one_add_n_pos (p : TMParams) (hf : p.f < 1) : 0 < 1 + p.n := by
  have h2f : 0 < 2 - p.f := by linarith
  have : 1 + p.n = 2 / (2 - p.f) := by
    rw [TMParams.n]
    field_simp
  rw [this]
  positivity

lemma b1_pos (p : TMParams) (hf : p.f < 1) : 0 < p.b1 := by
  rw [TMParams.b1, b1of, if_neg (by norm_num : ¬ (6 : ℕ) ≤ 5),
    if_pos (by norm_num : (6 : ℕ) ≤ 7)]
  apply div_pos
  · simp only [polyval, List.foldl]
    positivity
  · have := one_add_n_pos p hf
    linarith

lemma a1_pos (p : TMParams) (ha : 0 < p.a) (hf : p.f < 1) : 0 < p.a1 :=
  mul_pos (b1_pos p hf) ha

lemma Deq_sphere (v : ℝ) : Deq ⟨1, 0, 1⟩ v = 1 := by
  have hn : (⟨1, 0, 1⟩ : TMParams).n = 0 := by
    rw [TMParams.n]
    norm_num
  rw [Deq]
  norm_num [Finset.sum_range_succ, Finset.sum_range_zero, TMParams.alp_one,
    TMParams.alp_two, TMParams.alp_three, TMParams.alp_four, TMParams.alp_five,
    TMParams.alp_six, hn, polyval, List.foldl]

/-! ## The claims -/

/-- C3 (amended): when the exact engine is not selected, the constructor fails
with a configuration error exactly when the equatorial radius is non-finite or
non-positive, the flattening is non-finite or at least 1, the central scale is
non-finite or non-positive, or the extended-domain flag is requested; when the
exact engine is selected, the constructor returns before this validation and
never fails here. -/
theorem constructor_validation_iff (a f k0 : FpVal) (exactFlag extendp : Bool) :
    constructorError a f k0 exactFlag extendp ≠ none
      ↔ (exactFlag = false
         ∧ (¬(a.isfinite = true ∧ FpVal.ltb (.fin 0) a = true)
            ∨ ¬(f.isfinite = true ∧ FpVal.ltb f (.fin 1) = true)
            ∨ ¬(k0.isfinite = true ∧ FpVal.ltb (.fin 0) k0 = true)
            ∨ extendp = true)) := by
  cases exactFlag
  · rw [constructorError]
    simp only [Bool.false_eq_true, if_false]
    split_ifs with h1 h2 h3 h4 <;> simp_all
  · simp [constructorError]

/-- C3: the claim as stated is false: with the exact engine selected, a
non-positive equatorial radius raises no configuration error in this core. -/
theorem constructor_validation_cex :
    constructorError (.fin (-1)) (.fin 0) (.fin 1) true false = none
    ∧ ¬((FpVal.fin (-1)).isfinite = true
        ∧ FpVal.ltb (.fin 0) (.fin (-1)) = true) := by
  constructor
  · rfl
  · rintro ⟨-, h⟩
    simp only [FpVal.ltb, decide_eq_true_eq] at h
    norm_num at h

/-- C7: for flattening 0 (a sphere, third flattening `n = 0`), the coefficient
generation yields `b1 = 1` and `a1 = a` exactly, for every supported series
order 4 through 8. -/
theorem sphere_b1_a1 :
    (b1of 4 0 = 1 ∧ b1of 5 0 = 1 ∧ b1of 6 0 = 1 ∧ b1of 7 0 = 1 ∧ b1of 8 0 = 1)
    ∧ ∀ a : ℝ, a1of 4 0 a = a ∧ a1of 5 0 a = a ∧ a1of 6 0 a = a
        ∧ a1of 7 0 a = a ∧ a1of 8 0 a = a := by
  constructor
  · refine ⟨?_, ?_, ?_, ?_, ?_⟩ <;> norm_num [b1of, polyval, List.foldl]
  · intro a
    refine ⟨?_, ?_, ?_, ?_, ?_⟩ <;>
      norm_num [a1of, b1of, polyval, List.foldl]

/-- C9: when the exact-engine flag is set, the constructor performs no
validation in this core (no error for any parameter values), and every
`Forward`/`Reverse` call is handed unchanged to the delegate engine. -/
theorem exact_engine_delegation :
    (∀ (dF : ℝ → ℝ → ℝ → ℝ × ℝ × ℝ × ℝ) (p : TMParams) (lon0 lat lon : ℝ),
        TMForward true dF p lon0 lat lon = dF lon0 lat lon)
    ∧ (∀ (dR : ℝ → ℝ → ℝ → ℝ × ℝ × ℝ × ℝ) (p : TMParams) (lon0 x y : ℝ),
        TMReverse true dR p lon0 x y = dR lon0 x y)
    ∧ (∀ (a f k0 : FpVal) (extendp : Bool),
        constructorError a f k0 true extendp = none) :=
  ⟨fun _ _ _ _ _ => rfl, fun _ _ _ _ _ => rfl, fun _ _ _ _ => rfl⟩

/-- C4 (amended): for every longitude, `Forward` at latitude exactly `90`
(resp. `-90`) returns `x = 0`, `y = a1*k0*pi/2` carrying the sign of the
latitude, and `k = c * b1 * |1 + sum of 2*j*alp[j]*(-1)^j| * k0` (the
series-truncated value of `c*k0`), with `x`, `y` and `k` independent of the
longitude argument. -/
theorem forward_pole_values (p : TMParams) (lon0 lon : ℝ) :
    (ForwardCore p lon0 90 lon).1 = 0
    ∧ (ForwardCore p lon0 90 lon).2.1 = p.a1 * p.k0 * (π / 2)
    ∧ (ForwardCore p lon0 (-90) lon).1 = 0
    ∧ (ForwardCore p lon0 (-90) lon).2.1 = -(p.a1 * p.k0 * (π / 2))
    ∧ (ForwardCore p lon0 90 lon).2.2.2 = p.c * (p.b1 * |Dpole p|) * p.k0
    ∧ (ForwardCore p lon0 (-90) lon).2.2.2 = p.c * (p.b1 * |Dpole p|) * p.k0 := by
  obtain ⟨h1, h2, h3, h4, h5, h6⟩ := forwardCore_pole p lon0 lon
  exact ⟨h1, h2, h4, h5, h3, h6⟩

/-- C4: the claim as stated is false: at flattening `1/3` the scale returned
at the pole differs from `c * k0` (the series factor `b1 * |Dpole|` is not 1). -/
theorem forward_pole_scale_cex :
    (ForwardCore pEx 0 90 0).2.2.2 ≠ pEx.c * pEx.k0 := by
  have hk := (forwardCore_pole pEx 0 0).2.2.1
  rw [hk]
  have habs : |Dpole pEx| = 542687752721 / 623700000000 := by
    rw [pEx_Dpole, abs_of_pos (by norm_num)]
  rw [habs, pEx_b1, show pEx.k0 = 1 from rfl, mul_one, mul_one]
  intro heq
  have hc := pEx_c_pos
  nlinarith [heq, hc]

/-- C5 (amended): `Forward` at latitude 0 and longitude equal to the central
meridian returns `x = 0`, `y = 0`, `gamma = 0`, and
`k = b1 * (1 + sum of 2*j*alp[j]) * k0` (the series-truncated value of `k0`),
provided the series derivative factor is positive. -/
theorem forward_origin_values (p : TMParams) (lon0 : ℝ) (h : 0 < D0 p) :
    ForwardCore p lon0 0 lon0 = (0, 0, 0, p.b1 * D0 p * p.k0) :=
  forwardCore_origin p lon0 h

/-- C5 witness: the sphere, where the amended value coincides with `k0`. -/
theorem forward_origin_values_witness :
    0 < D0 ⟨1, 0, 1⟩
    ∧ ForwardCore ⟨1, 0, 1⟩ 0 0 0
        = (0, 0, 0, (⟨1, 0, 1⟩ : TMParams).b1 * D0 ⟨1, 0, 1⟩
            * (⟨1, 0, 1⟩ : TMParams).k0) := by
  have hn : (⟨1, 0, 1⟩ : TMParams).n = 0 := by
    rw [TMParams.n]
    norm_num
  have h : 0 < D0 ⟨1, 0, 1⟩ := by
    rw [D0]
    norm_num [Finset.sum_range_succ, Finset.sum_range_zero, TMParams.alp_one,
      TMParams.alp_two, TMParams.alp_three, TMParams.alp_four, TMParams.alp_five,
      TMParams.alp_six, hn, polyval, List.foldl]
  exact ⟨h, forward_origin_values _ 0 h⟩

/-- C5: the claim as stated is false: at flattening `1/3` the scale returned
at the origin differs from `k0` by the series truncation. -/
theorem forward_origin_scale_cex :
    (ForwardCore pEx 0 0 0).2.2.2 ≠ pEx.k0 := by
  have hpos : 0 < D0 pEx := by
    rw [pEx_D0]
    norm_num
  have hval := forwardCore_origin pEx 0 hpos
  rw [hval]
  show pEx.b1 * D0 pEx * pEx.k0 ≠ pEx.k0
  rw [pEx_b1, pEx_D0, show pEx.k0 = 1 from rfl, mul_one]
  norm_num

/-- C6 (amended): negating a nonzero latitude negates `y` and `gamma` and
leaves `x` and `k` unchanged; mirroring a nonzero longitude difference about
the central meridian negates `x` and `gamma` and leaves `y` and `k`
unchanged.  (At equatorial back-side points, where the mirrored input
coincides with the original, the latitude half of the claim fails.) -/
theorem forward_mirror_symmetry (p : TMParams) (lon0 lat lon d : ℝ) :
    (lat ≠ 0 →
      (ForwardCore p lon0 (-lat) lon).1 = (ForwardCore p lon0 lat lon).1
      ∧ (ForwardCore p lon0 (-lat) lon).2.1 = -(ForwardCore p lon0 lat lon).2.1
      ∧ (ForwardCore p lon0 (-lat) lon).2.2.1
          = -(ForwardCore p lon0 lat lon).2.2.1
      ∧ (ForwardCore p lon0 (-lat) lon).2.2.2
          = (ForwardCore p lon0 lat lon).2.2.2)
    ∧ (AngNormalize d ≠ 0 →
      (ForwardCore p lon0 lat (lon0 - d)).1
          = -(ForwardCore p lon0 lat (lon0 + d)).1
      ∧ (ForwardCore p lon0 lat (lon0 - d)).2.1
          = (ForwardCore p lon0 lat (lon0 + d)).2.1
      ∧ (ForwardCore p lon0 lat (lon0 - d)).2.2.1
          = -(ForwardCore p lon0 lat (lon0 + d)).2.2.1
      ∧ (ForwardCore p lon0 lat (lon0 - d)).2.2.2
          = (ForwardCore p lon0 lat (lon0 + d)).2.2.2) :=
  ⟨forwardCore_latsign_mirror p lon0 lat lon,
   forwardCore_lonsign_mirror p lon0 lat d⟩

/-- C6 witness at latitude 45, longitude 10, difference 30 on the sphere. -/
theorem forward_mirror_symmetry_witness :
    ((45 : ℝ) ≠ 0 ∧ AngNormalize 30 ≠ 0)
    ∧ ((ForwardCore ⟨1, 0, 1⟩ 0 (-45) 10).1 = (ForwardCore ⟨1, 0, 1⟩ 0 45 10).1
      ∧ (ForwardCore ⟨1, 0, 1⟩ 0 (-45) 10).2.1
          = -(ForwardCore ⟨1, 0, 1⟩ 0 45 10).2.1
      ∧ (ForwardCore ⟨1, 0, 1⟩ 0 (-45) 10).2.2.1
          = -(ForwardCore ⟨1, 0, 1⟩ 0 45 10).2.2.1
      ∧ (ForwardCore ⟨1, 0, 1⟩ 0 (-45) 10).2.2.2
          = (ForwardCore ⟨1, 0, 1⟩ 0 45 10).2.2.2)
    ∧ ((ForwardCore ⟨1, 0, 1⟩ 0 45 (0 - 30)).1
          = -(ForwardCore ⟨1, 0, 1⟩ 0 45 (0 + 30)).1
      ∧ (ForwardCore ⟨1, 0, 1⟩ 0 45 (0 - 30)).2.1
          = (ForwardCore ⟨1, 0, 1⟩ 0 45 (0 + 30)).2.1
      ∧ (ForwardCore ⟨1, 0, 1⟩ 0 45 (0 - 30)).2.2.1
          = -(ForwardCore ⟨1, 0, 1⟩ 0 45 (0 + 30)).2.2.1
      ∧ (ForwardCore ⟨1, 0, 1⟩ 0 45 (0 - 30)).2.2.2
          = (ForwardCore ⟨1, 0, 1⟩ 0 45 (0 + 30)).2.2.2) := by
  have h45 : (45 : ℝ) ≠ 0 := by norm_num
  have h30 : AngNormalize 30 ≠ 0 := by
    rw [AngNormalize_small (by norm_num) (by norm_num)]
    norm_num
  exact ⟨⟨h45, h30⟩,
    (forward_mirror_symmetry ⟨1, 0, 1⟩ 0 45 10 30).1 h45,
    (forward_mirror_symmetry ⟨1, 0, 1⟩ 0 45 10 30).2 h30⟩

/-- C6: the claim as stated ("for every lat and lon") is false: at an
equatorial back-side point the mirrored latitude input coincides with the
original, but the northing is nonzero, so it is not negated. -/
theorem forward_mirror_equator_cex :
    (ForwardCore ⟨1, 0, 1⟩ 0 (-0) 120).2.1
      ≠ -(ForwardCore ⟨1, 0, 1⟩ 0 0 120).2.1 := by
  have hAD : AngDiff (0 : ℝ) 120 = 120 := by
    rw [AngDiff, sub_zero, AngNormalize_small (by norm_num) (by norm_num)]
  have h : (90 : ℝ) < |AngDiff (0 : ℝ) 120| := by
    rw [hAD]
    norm_num
  have hy := forwardCore_equator_backside ⟨1, 0, 1⟩ 0 120 h
  have ha1 : (⟨1, 0, 1⟩ : TMParams).a1 = 1 := by
    rw [TMParams.a1, TMParams.b1, TMParams.n, b1of]
    norm_num [polyval, List.foldl]
  rw [neg_zero, hy, ha1, show (⟨1, 0, 1⟩ : TMParams).k0 = 1 from rfl]
  have hπ := Real.pi_pos
  intro heq
  rw [neg_neg] at heq
  norm_num at heq
  linarith

/-- C10 (amended): in `Forward`, when the normalized longitude difference
exceeds 90 and the normalized latitude is exactly 0, the recorded latitude
sign is forced to `-1`, so the returned northing is `y = -(a1 * k0 * pi)` —
a strictly negative value (not a negative zero) although the input latitude
is non-negative — and, provided the series derivative factor on the
equatorial segment is positive (true in the series' convergence regime, e.g.
on the sphere), the returned convergence is `-lonsign * 180` degrees: it
carries the forced negative sign (`-180`) for an eastward longitude
difference but is `+180` for a westward one. -/
theorem equator_backside_sign (p : TMParams) (lon0 lon : ℝ)
    (ha : 0 < p.a) (hf : p.f < 1) (hk : 0 < p.k0)
    (h : 90 < |AngDiff lon0 lon|)
    (hD : 0 < Deq p ((gaussSchreiber p 0 (180 - |AngDiff lon0 lon|)).2.1)) :
    (ForwardCore p lon0 0 lon).2.1 = -(p.a1 * p.k0 * π)
    ∧ (ForwardCore p lon0 0 lon).2.1 < 0
    ∧ (ForwardCore p lon0 0 lon).2.2.1 = -signOf (AngDiff lon0 lon) * 180 := by
  have hy := forwardCore_equator_backside p lon0 lon h
  refine ⟨hy, ?_, forwardCore_equator_backside_gamma p lon0 lon h hD⟩
  rw [hy, neg_lt, neg_zero]
  exact mul_pos (mul_pos (a1_pos p ha hf) hk) Real.pi_pos

/-- C10 witness at longitude difference 120 (eastward) on the unit sphere:
the northing is `-pi` and the convergence is `-180`. -/
theorem equator_backside_sign_witness :
    (0 : ℝ) < (⟨1, 0, 1⟩ : TMParams).a
    ∧ (⟨1, 0, 1⟩ : TMParams).f < 1
    ∧ (0 : ℝ) < (⟨1, 0, 1⟩ : TMParams).k0
    ∧ (90 : ℝ) < |AngDiff 0 120|
    ∧ 0 < Deq ⟨1, 0, 1⟩ ((gaussSchreiber ⟨1, 0, 1⟩ 0 (180 - |AngDiff 0 120|)).2.1)
    ∧ (ForwardCore ⟨1, 0, 1⟩ 0 0 120).2.1
        = -((⟨1, 0, 1⟩ : TMParams).a1 * (⟨1, 0, 1⟩ : TMParams).k0 * π)
    ∧ (ForwardCore ⟨1, 0, 1⟩ 0 0 120).2.1 < 0
    ∧ (ForwardCore ⟨1, 0, 1⟩ 0 0 120).2.2.1 = -signOf (AngDiff 0 120) * 180 := by
  have hAD : AngDiff (0 : ℝ) 120 = 120 := by
    rw [AngDiff, sub_zero, AngNormalize_small (by norm_num) (by norm_num)]
  have h : (90 : ℝ) < |AngDiff (0 : ℝ) 120| := by
    rw [hAD]
    norm_num
  have hD : 0 < Deq ⟨1, 0, 1⟩
      ((gaussSchreiber ⟨1, 0, 1⟩ 0 (180 - |AngDiff 0 120|)).2.1) := by
    rw [Deq_sphere]
    norm_num
  obtain ⟨h1, h2, h3⟩ :=
    equator_backside_sign ⟨1, 0, 1⟩ 0 120 zero_lt_one zero_lt_one zero_lt_one h hD
  exact ⟨zero_lt_one, zero_lt_one, zero_lt_one, h, hD, h1, h2, h3⟩

/-- C10: the claim as stated is false at a westward equatorial back-side
point: on the unit sphere at longitude difference `-120` the northing is
`-pi` — strictly negative and nonzero, so not a negative zero — and the
convergence is `+180`, so it does not carry a negative sign. -/
theorem equator_backside_claim_cex :
    (ForwardCore ⟨1, 0, 1⟩ 0 0 (-120)).2.1 = -π
    ∧ (ForwardCore ⟨1, 0, 1⟩ 0 0 (-120)).2.1 ≠ 0
    ∧ (ForwardCore ⟨1, 0, 1⟩ 0 0 (-120)).2.2.1 = 180
    ∧ 0 < (ForwardCore ⟨1, 0, 1⟩ 0 0 (-120)).2.2.1 := by
  have hAD : AngDiff (0 : ℝ) (-120) = -120 := by
    rw [AngDiff, sub_zero, AngNormalize_small (by norm_num) (by norm_num)]
  have h : (90 : ℝ) < |AngDiff (0 : ℝ) (-120)| := by
    rw [hAD]
    norm_num
  have hD : 0 < Deq ⟨1, 0, 1⟩
      ((gaussSchreiber ⟨1, 0, 1⟩ 0 (180 - |AngDiff 0 (-120)|)).2.1) := by
    rw [Deq_sphere]
    norm_num
  have hy := forwardCore_equator_backside ⟨1, 0, 1⟩ 0 (-120) h
  have hg := forwardCore_equator_backside_gamma ⟨1, 0, 1⟩ 0 (-120) h hD
  have ha1 : (⟨1, 0, 1⟩ : TMParams).a1 = 1 := by
    rw [TMParams.a1, TMParams.b1, TMParams.n, b1of]
    norm_num [polyval, List.foldl]
  have hgval : (ForwardCore ⟨1, 0, 1⟩ 0 0 (-120)).2.2.1 = 180 := by
    rw [hg, hAD, signOf, if_pos (by norm_num : (-120 : ℝ) < 0)]
    norm_num
  rw [hy, ha1, show (⟨1, 0, 1⟩ : TMParams).k0 = 1 from rfl]
  refine ⟨by ring, ?_, hgval, by rw [hgval]; norm_num⟩
  have := Real.pi_pos
  intro heq
  norm_num at heq
  linarith
end

